import Mathlib

/-!
Verification of the OptiProfiler benchmark-reduction core.

The Python source operates on IEEE-754 doubles.  We embed the float values
that the reduction pipeline manipulates as an inductive type `FP`:
a rational number (every finite double is rational), `+inf`, `-inf`, or
`nan`.  Rational arithmetic is exact, which idealises away rounding; the
special-value propagation rules (NaN contamination, infinity saturation,
NaN-incomparability) are modelled exactly as IEEE comparisons behave in
numpy and Python.  Transcendental primitives (`np.sin`, the draws of a
`numpy.random.Generator`, `np.linalg.norm`, `log2`) return representable
doubles, hence rationals; they enter the development as explicit function
parameters, so every theorem holds for any interpretation of them.
-/

/-- A double value: `nan`, `+inf`, `-inf`, or a finite value (a rational). -/
inductive FP where
  | nan : FP
  | inf : FP
  | neginf : FP
  | fin : ℚ → FP
deriving DecidableEq

/-- IEEE `<=`: any comparison involving NaN is false. -/
def FP.le : FP → FP → Bool
  | .nan, _ => false
  | _, .nan => false
  | .neginf, _ => true
  | _, .inf => true
  | .inf, _ => false
  | .fin a, .fin b => decide (a ≤ b)
  | .fin _, .neginf => false

/-- IEEE `<`: any comparison involving NaN is false. -/
def FP.lt : FP → FP → Bool
  | .nan, _ => false
  | _, .nan => false
  | .inf, _ => false
  | _, .neginf => false
  | .neginf, _ => true
  | .fin a, .fin b => decide (a < b)
  | .fin _, .inf => true

/-- IEEE addition on extended values; `inf + (-inf)` is NaN. -/
def FP.add : FP → FP → FP
  | .nan, _ => .nan
  | _, .nan => .nan
  | .inf, .neginf => .nan
  | .neginf, .inf => .nan
  | .inf, _ => .inf
  | _, .inf => .inf
  | .neginf, _ => .neginf
  | _, .neginf => .neginf
  | .fin a, .fin b => .fin (a + b)

/-- IEEE multiplication of a finite scalar by an extended value;
`0 * inf` is NaN. -/
def FP.mulQ (c : ℚ) : FP → FP
  | .nan => .nan
  | .inf => if 0 < c then .inf else if c < 0 then .neginf else .nan
  | .neginf => if 0 < c then .neginf else if c < 0 then .inf else .nan
  | .fin a => .fin (c * a)

/-- `np.isfinite`. -/
def FP.isFinite : FP → Bool
  | .fin _ => true
  | _ => false

/-- The sanitisation performed by
`np.nan_to_num(v, nan=np.inf, posinf=np.inf, neginf=-np.inf)`:
NaN becomes `+inf`, everything else (including both infinities) is kept. -/
def FP.sanitize : FP → FP
  | .nan => .inf
  | x => x

/-- Python's builtin `max(a, b)`: returns `b` if `b > a`, else `a`
(so the first argument wins on ties and on NaN-incomparability). -/
def pyMax (a b : FP) : FP :=
  if FP.lt a b then b else a

/-- The element-wise merit computation of `_compute_merit_values` on
array inputs: sanitise the objective value, force `+inf` where
`maxcv >= 1e-6`, and add the penalty `1e8 * maxcv` where
`1e-12 < maxcv < 1e-6`. -/
def meritArrayElem (f cv : FP) : FP :=
  let is_infeasible := FP.le (.fin (1 / 10 ^ 6)) cv
  let is_almost_feasible := FP.lt (.fin (1 / 10 ^ 12)) cv && FP.lt cv (.fin (1 / 10 ^ 6))
  let m := FP.sanitize f
  if is_infeasible then .inf
  else if is_almost_feasible then FP.add m (FP.mulQ (10 ^ 8) cv)
  else m

/-- The array branch of `_compute_merit_values`, element-wise over the
flattened (problem, solver, run, evaluation-index) array. -/
def computeMeritValues (funValues maxcvValues : List FP) : List FP :=
  List.zipWith meritArrayElem funValues maxcvValues

/-- The scalar branch of `_compute_merit_values`: note that it returns
the objective value unsanitised. -/
def meritScalar (f cv : FP) : FP :=
  if FP.le cv (.fin (1 / 10 ^ 12)) then f
  else if FP.le (.fin (1 / 10 ^ 6)) cv then .inf
  else FP.add f (FP.mulQ (10 ^ 8) cv)

/-- Modelled from the spec: the merit formula as the specification words it
(`+inf` when `cv >= 1e-6`, `sanitize(f) + 1e8 * cv` when `cv > 1e-12`,
else `sanitize(f)`), to be compared with the two code paths. -/
def meritSpec (f cv : FP) : FP :=
  if FP.le (.fin (1 / 10 ^ 6)) cv then .inf
  else if FP.lt (.fin (1 / 10 ^ 12)) cv then FP.add (FP.sanitize f) (FP.mulQ (10 ^ 8) cv)
  else FP.sanitize f

theorem meritArrayElem_eq_spec (f cv : FP) : meritArrayElem f cv = meritSpec f cv := by
  cases cv with
  | nan => cases f <;> rfl
  | inf => cases f <;> rfl
  | neginf => cases f <;> rfl
  | fin c =>
    simp only [meritArrayElem, meritSpec, FP.le, FP.lt, Bool.and_eq_true, decide_eq_true_eq]
    by_cases h1 : (1 : ℚ) / 10 ^ 6 ≤ c
    · rw [if_pos h1, if_pos h1]
    · rw [if_neg h1, if_neg h1]
      by_cases h3 : (1 : ℚ) / 10 ^ 12 < c
      · rw [if_pos ⟨h3, lt_of_not_ge h1⟩, if_pos h3]
      · rw [if_neg (fun h => h3 h.1), if_neg h3]

theorem meritScalar_eq_spec_of_ne_nan (f cv : FP) (hf : f ≠ .nan) (hcv : cv ≠ .nan) :
    meritScalar f cv = meritSpec f cv := by
  have hsan : FP.sanitize f = f := by
    cases f with
    | nan => exact absurd rfl hf
    | inf => rfl
    | neginf => rfl
    | fin q => rfl
  cases cv with
  | nan => exact absurd rfl hcv
  | inf => simp [meritScalar, meritSpec, FP.le, FP.lt, hsan]
  | neginf => simp [meritScalar, meritSpec, FP.le, FP.lt, hsan]
  | fin c =>
    simp only [meritScalar, meritSpec, FP.le, FP.lt, decide_eq_true_eq]
    by_cases h1 : c ≤ (1 : ℚ) / 10 ^ 12
    · have h2 : ¬ ((1 : ℚ) / 10 ^ 6 ≤ c) := by
        intro hc
        have : (1 : ℚ) / 10 ^ 12 < 1 / 10 ^ 6 := by norm_num
        linarith
      rw [if_pos h1, if_neg h2, if_neg (not_lt.mpr h1), hsan]
    · rw [if_neg h1]
      by_cases h2 : (1 : ℚ) / 10 ^ 6 ≤ c
      · rw [if_pos h2, if_pos h2]
      · rw [if_neg h2, if_neg h2, if_pos (lt_of_not_ge h1), hsan]

/-- C1 counterexample: on the scalar branch, a NaN objective value with a
feasible constraint violation stays NaN instead of being sanitised to
`+inf` as the claimed formula requires. -/
theorem meritScalar_nan_counterexample :
    meritScalar FP.nan (FP.fin 0) ≠ meritSpec FP.nan (FP.fin 0) := by
  norm_num [meritScalar, meritSpec, FP.le, FP.lt, FP.sanitize]
  exact fun h => nomatch h

/-- C1 (amended): the element-wise array branch of `_compute_merit_values`
computes exactly the claimed formula (`+inf` when `cv >= 1e-6`,
`sanitize(f) + 1e8 * cv` when `cv > 1e-12`, else `sanitize(f)`); the
scalar branch agrees with that formula whenever neither the objective
value nor the constraint violation is NaN, but does not sanitise NaN. -/
theorem merit_values_conform (funValues maxcvValues : List FP) (f cv : FP)
    (hf : f ≠ .nan) (hcv : cv ≠ .nan) :
    computeMeritValues funValues maxcvValues = List.zipWith meritSpec funValues maxcvValues ∧
      meritScalar f cv = meritSpec f cv := by
  constructor
  · unfold computeMeritValues
    induction funValues generalizing maxcvValues with
    | nil => simp
    | cons a l ih =>
      cases maxcvValues with
      | nil => simp
      | cons b m => simp [meritArrayElem_eq_spec, ih]
  · exact meritScalar_eq_spec_of_ne_nan f cv hf hcv

/-- C1 witness: the amended statement evaluated at a concrete array and a
concrete non-NaN scalar pair. -/
theorem merit_values_conform_witness :
    computeMeritValues [FP.fin 5, FP.nan] [FP.fin 0, FP.fin 0] =
        List.zipWith meritSpec [FP.fin 5, FP.nan] [FP.fin 0, FP.fin 0] ∧
      meritScalar (FP.fin 5) (FP.fin 0) = meritSpec (FP.fin 5) (FP.fin 0) :=
  merit_values_conform [FP.fin 5, FP.nan] [FP.fin 0, FP.fin 0] (FP.fin 5) (FP.fin 0)
    (by simp) (by simp)

/-- C2 counterexample: the spec example `meritOf(5.0, 1e-3) == 5.0 + 1e8 * 1e-3`
is false: `1e-3` is at least the infeasibility cutoff `1e-6`, so the code
returns `+inf`. -/
theorem merit_example_counterexample :
    meritScalar (FP.fin 5) (FP.fin (1 / 10 ^ 3)) ≠ FP.fin (5 + 10 ^ 8 * (1 / 10 ^ 3)) := by
  norm_num [meritScalar, FP.le, FP.lt]
  exact fun h => nomatch h

/-- C2 (amended): the scalar merit evaluations actually produced by the code:
`meritOf(5.0, 0.0) = 5.0`; `meritOf(5.0, 1e-3) = +inf` (infeasible, since
`1e-3 >= 1e-6`); `meritOf(5.0, 1.0) = +inf`; `meritOf(NaN, 0.0) = NaN` on
the scalar branch (the array branch maps the same pair to `+inf`). -/
theorem merit_examples :
    meritScalar (FP.fin 5) (FP.fin 0) = FP.fin 5 ∧
      meritScalar (FP.fin 5) (FP.fin (1 / 10 ^ 3)) = FP.inf ∧
      meritScalar (FP.fin 5) (FP.fin 1) = FP.inf ∧
      meritScalar FP.nan (FP.fin 0) = FP.nan ∧
      meritArrayElem FP.nan (FP.fin 0) = FP.inf := by
  refine ⟨?_, ?_, ?_, ?_, ?_⟩ <;>
    norm_num [meritScalar, meritArrayElem, FP.le, FP.lt, FP.sanitize]

/-!
The perturbation model (`features.py`).  The draws of a
`numpy.random.Generator` are modelled by explicit function parameters:
`stdNormal seed` is the first `standard_normal()` draw of
`np.random.default_rng(seed)`, and `rngOf s i` is the `i`-th `uniform()`
draw in `[0, 1)` of `np.random.default_rng(s)`; sequential draws from one
generator are the stream positions `0, 1, ...` in order.  `sinQ` stands
for `np.sin` and `normF ord x` for `np.linalg.norm(x, ord)`; all return
representable doubles, hence rationals.
-/

/-- The closed set of feature names accepted by `Feature.__init__`. -/
inductive FeatureName where
  | plain : FeatureName
  | custom : FeatureName
  | noisy : FeatureName
  | randomize_x0 : FeatureName
  | regularized : FeatureName
  | tough : FeatureName
  | truncated : FeatureName
deriving DecidableEq

/-- The two values of the `type` option of the `noisy` feature. -/
inductive NoiseType where
  | absolute : NoiseType
  | relative : NoiseType
deriving DecidableEq

/-- The validated option mapping of a `Feature`; `none` marks an unset
key, exactly like a key absent from the Python options dict.  User
callables (`modifier`, `distribution`) are arbitrary functions. -/
structure FeatureOptions where
  n_runs : Option ℕ := none
  modifier : Option (List ℚ → ℚ → Option ℕ → FP) := none
  distribution : Option ((ℕ → ℚ) → ℚ) := none
  order : Option ℚ := none
  parameter : Option ℚ := none
  rate_error : Option ℚ := none
  rate_nan : Option ℚ := none
  significant_digits : Option ℕ := none
  type : Option NoiseType := none

/-- `dict.setdefault`: keep the stored value, or store the default. -/
def setDefault {α : Type} (v : Option α) (d : α) : Option α :=
  match v with
  | none => some d
  | some x => some x

/-- `Feature._set_default_options`: fill the name-specific defaults;
`custom` without an explicit modifier is rejected (`none`).  The default
distribution of `noisy` (`1e-3 * standard_normal`) is the abstract
parameter `defaultDist`; `randomize_x0` also defaults a distribution in
the source, but of a different arity, consumed only by the external
`FeaturedProblem` collaborator, so it is not recorded here. -/
def setDefaultOptions (defaultDist : (ℕ → ℚ) → ℚ) (name : FeatureName) (o : FeatureOptions) :
    Option FeatureOptions :=
  match name with
  | .plain => some { o with n_runs := setDefault o.n_runs 1 }
  | .custom =>
      match o.modifier with
      | none => none
      | some _ => some { o with n_runs := setDefault o.n_runs 1 }
  | .noisy => some { o with distribution := setDefault o.distribution defaultDist,
                            n_runs := setDefault o.n_runs 10,
                            type := setDefault o.type .relative }
  | .randomize_x0 => some { o with n_runs := setDefault o.n_runs 10 }
  | .regularized => some { o with n_runs := setDefault o.n_runs 1,
                                  order := setDefault o.order 2,
                                  parameter := setDefault o.parameter 1 }
  | .tough => some { o with n_runs := setDefault o.n_runs 10,
                            rate_error := setDefault o.rate_error 0,
                            rate_nan := setDefault o.rate_nan (1 / 20) }
  | .truncated => some { o with n_runs := setDefault o.n_runs 10,
                                significant_digits := setDefault o.significant_digits 6 }

/-- `Feature.default_rng`: the seed of the derived generator,
`int(1e9 * abs(sin(1e5 * rng.standard_normal()) + sum(sin(1e5 * arg) for arg in args)))`.
The argument of `int` is nonnegative (it is an absolute value), so the
truncation is a floor. -/
def derivedSeed (sinQ : ℚ → ℚ) (stdNormal : Option ℕ → ℚ) (seed : Option ℕ)
    (args : List ℚ) : ℤ :=
  ⌊(10 ^ 9 : ℚ) * |sinQ (10 ^ 5 * stdNormal seed) + (args.map (fun a => sinQ (10 ^ 5 * a))).sum|⌋

/-- Sum of the character codes of a string, as in
`sum(ord(letter) for letter in options[TYPE])`. -/
def ordSum (s : List Char) : ℕ := (s.map Char.toNat).sum

/-- The lower-case name of a noise type, as the character list the
source iterates over. -/
def noiseTypeName : NoiseType → List Char
  | .absolute => ['a', 'b', 's', 'o', 'l', 'u', 't', 'e']
  | .relative => ['r', 'e', 'l', 'a', 't', 'i', 'v', 'e']

/-- Round to the nearest integer, ties to even, as Python's `round`. -/
def roundHalfEven (q : ℚ) : ℤ :=
  if q - ⌊q⌋ < 1 / 2 then ⌊q⌋
  else if 1 / 2 < q - ⌊q⌋ then ⌊q⌋ + 1
  else if ⌊q⌋ % 2 = 0 then ⌊q⌋ else ⌊q⌋ + 1

/-- Python's `round(q, d)`: round to `d` decimal digits, ties to even. -/
def pyRound (q : ℚ) (d : ℤ) : ℚ :=
  (roundHalfEven (q * 10 ^ d) : ℚ) * 10 ^ (-d)

/-- The decimal position used by the `truncated` feature:
`significant_digits - 1` for `f == 0`, else
`significant_digits - int(floor(log10(abs(f)))) - 1`. -/
def truncDigits (sig : ℕ) (f : ℚ) : ℤ :=
  if f = 0 then (sig : ℤ) - 1 else (sig : ℤ) - Int.log 10 |f| - 1

/-- `Feature.modifier`: modify the objective value according to the
feature.  A `tough` simulated failure (`raise RuntimeError`) is the
`.error ()` result.  `rng.uniform(0, h)` is `h * rngOf s i` for the next
stream position `i`.  `np.floor(np.log10(np.abs(f)))` is `Int.log 10 |f|`
for `f ≠ 0`.  The `.getD` fallbacks on option reads are never taken after
`setDefaultOptions` (the source would raise a `KeyError` instead). -/
def Feature.modifier (sinQ : ℚ → ℚ) (stdNormal : Option ℕ → ℚ) (rngOf : ℤ → ℕ → ℚ)
    (normF : ℚ → List ℚ → ℚ) (name : FeatureName) (o : FeatureOptions)
    (x : List ℚ) (f : ℚ) (seed : Option ℕ) : Except Unit FP :=
  match name with
  | .custom => .ok ((o.modifier.getD (fun _ g _ => .fin g)) x f seed)
  | .noisy =>
      if o.type.getD .relative = .absolute then
        .ok (.fin (f + (o.distribution.getD (fun _ => 0))
          (rngOf (derivedSeed sinQ stdNormal seed
            (f :: (ordSum (noiseTypeName (o.type.getD .relative)) : ℚ) :: x)))))
      else
        .ok (.fin (f * (1 + (o.distribution.getD (fun _ => 0))
          (rngOf (derivedSeed sinQ stdNormal seed
            (f :: (ordSum (noiseTypeName (o.type.getD .relative)) : ℚ) :: x))))))
  | .regularized => .ok (.fin (f + o.parameter.getD 0 * normF (o.order.getD 0) x))
  | .tough =>
      if rngOf (derivedSeed sinQ stdNormal seed
          (f :: o.rate_error.getD 0 :: o.rate_nan.getD 0 :: x)) 0 < o.rate_error.getD 0 then
        .error ()
      else if rngOf (derivedSeed sinQ stdNormal seed
          (f :: o.rate_error.getD 0 :: o.rate_nan.getD 0 :: x)) 1 < o.rate_nan.getD 0 then
        .ok .nan
      else .ok (.fin f)
  | .truncated =>
      if 0 ≤ f then
        .ok (.fin (pyRound f (truncDigits (o.significant_digits.getD 0) f) +
          10 ^ (-(truncDigits (o.significant_digits.getD 0) f)) *
            rngOf (derivedSeed sinQ stdNormal seed
              (f :: (o.significant_digits.getD 0 : ℚ) :: x)) 0))
      else
        .ok (.fin (pyRound f (truncDigits (o.significant_digits.getD 0) f) -
          10 ^ (-(truncDigits (o.significant_digits.getD 0) f)) *
            rngOf (derivedSeed sinQ stdNormal seed
              (f :: (o.significant_digits.getD 0 : ℚ) :: x)) 0))
  | _ => .ok (.fin f)

theorem derivedSeed_perm (sinQ : ℚ → ℚ) (stdNormal : Option ℕ → ℚ) (seed : Option ℕ)
    {l₁ l₂ : List ℚ} (h : l₁.Perm l₂) :
    derivedSeed sinQ stdNormal seed l₁ = derivedSeed sinQ stdNormal seed l₂ := by
  unfold derivedSeed
  rw [List.Perm.sum_eq (h.map _)]

/-- The options the `tough` feature of C3 is constructed with. -/
def toughOpts : FeatureOptions := { rate_error := some 0, rate_nan := some 1 }

/-- A degenerate interpretation of `np.sin`, used to instantiate
universally quantified theorems at a concrete input. -/
def zeroSin : ℚ → ℚ := fun _ => 0

/-- A degenerate interpretation of the first `standard_normal()` draw. -/
def zeroNormal : Option ℕ → ℚ := fun _ => 0

/-- A degenerate interpretation of the uniform draw streams: every draw
is 0, which lies in `[0, 1)`. -/
def zeroStream : ℤ → ℕ → ℚ := fun _ _ => 0

/-- A degenerate interpretation of `np.linalg.norm`: the plain sum of
the coordinates (which, unlike a norm, distinguishes permuted points of
equal norm in no way relevant here). -/
def sumNorm : ℚ → List ℚ → ℚ := fun _ x => x.sum

/-- C3: for a `tough` feature with `rate_error = 0` and `rate_nan = 1`,
the modifier never signals the simulated failure and always returns NaN,
for every point, objective value and seed: the failure check consumes the
first uniform draw, which is at least 0 and so never below 0, and the NaN
check consumes the second, which is below 1. -/
theorem tough_never_fails_always_nan (sinQ : ℚ → ℚ) (stdNormal : Option ℕ → ℚ)
    (rngOf : ℤ → ℕ → ℚ) (normF : ℚ → List ℚ → ℚ) (defaultDist : (ℕ → ℚ) → ℚ)
    (x : List ℚ) (f : ℚ) (seed : Option ℕ) (o : FeatureOptions)
    (ho : setDefaultOptions defaultDist .tough toughOpts = some o)
    (hrng : ∀ s i, 0 ≤ rngOf s i ∧ rngOf s i < 1) :
    Feature.modifier sinQ stdNormal rngOf normF .tough o x f seed = .ok .nan := by
  simp only [setDefaultOptions, toughOpts, setDefault, Option.some.injEq] at ho
  subst ho
  simp only [Feature.modifier, Option.getD_some]
  rw [if_neg (not_lt.mpr (hrng _ 0).1), if_pos (hrng _ 1).2]

/-- C3 witness: the theorem applied to a concrete interpretation of the
random primitives (all draws 0) and a concrete input. -/
theorem tough_never_fails_always_nan_witness :
    Feature.modifier zeroSin zeroNormal zeroStream sumNorm .tough
        { toughOpts with n_runs := some 10 } [1, 2] 5 (some 0) = .ok .nan :=
  tough_never_fails_always_nan zeroSin zeroNormal zeroStream sumNorm
    (fun _ => 0) [1, 2] 5 (some 0) { toughOpts with n_runs := some 10 } rfl
    (fun _ _ => ⟨by norm_num [zeroStream], by norm_num [zeroStream]⟩)

/-- C7: generator derivation and the `noisy`, `tough` and `truncated`
modifiers are deterministic: two calls with identical seed, objective
value, point and options produce identical results, and `default_rng`
applied twice to the same seed and context tuple yields the same
generator stream. -/
theorem modifier_deterministic (sinQ : ℚ → ℚ) (stdNormal : Option ℕ → ℚ)
    (rngOf : ℤ → ℕ → ℚ) (normF : ℚ → List ℚ → ℚ) (name : FeatureName)
    (hname : name = FeatureName.noisy ∨ name = FeatureName.tough ∨ name = FeatureName.truncated)
    (o₁ o₂ : FeatureOptions) (x₁ x₂ : List ℚ) (f₁ f₂ : ℚ) (s₁ s₂ : Option ℕ)
    (args : List ℚ) (ho : o₁ = o₂) (hx : x₁ = x₂) (hf : f₁ = f₂) (hs : s₁ = s₂) :
    Feature.modifier sinQ stdNormal rngOf normF name o₁ x₁ f₁ s₁ =
        Feature.modifier sinQ stdNormal rngOf normF name o₂ x₂ f₂ s₂ ∧
      rngOf (derivedSeed sinQ stdNormal s₁ (f₁ :: args)) =
        rngOf (derivedSeed sinQ stdNormal s₂ (f₂ :: args)) := by
  subst ho hx hf hs
  exact ⟨rfl, rfl⟩

/-- C7 witness: the determinism statement at a concrete interpretation,
point, value and seed for the `tough` feature. -/
theorem modifier_deterministic_witness :
    Feature.modifier zeroSin zeroNormal zeroStream sumNorm .tough toughOpts [1] 5 (some 3) =
        Feature.modifier zeroSin zeroNormal zeroStream sumNorm .tough toughOpts [1] 5
          (some 3) ∧
      zeroStream (derivedSeed zeroSin zeroNormal (some 3) [5, 2]) =
        zeroStream (derivedSeed zeroSin zeroNormal (some 3) [5, 2]) :=
  modifier_deterministic zeroSin zeroNormal zeroStream sumNorm .tough
    (Or.inr (Or.inl rfl)) toughOpts toughOpts [1] [1] 5 5 (some 3) (some 3) [2]
    rfl rfl rfl rfl

/-- C8: the `regularized` modifier returns `f + parameter * norm(x, order)`
for every point and objective value; the defaults filled in when these
options are unset are `order = 2` and `parameter = 1`, under which the
result is `f + norm(x, 2)`. -/
theorem regularized_modifier_eq (sinQ : ℚ → ℚ) (stdNormal : Option ℕ → ℚ)
    (rngOf : ℤ → ℕ → ℚ) (normF : ℚ → List ℚ → ℚ) (defaultDist : (ℕ → ℚ) → ℚ)
    (x : List ℚ) (f : ℚ) (seed : Option ℕ) (ord param : ℚ) (o₁ o₂ : FeatureOptions)
    (h₁ : setDefaultOptions defaultDist .regularized
      { order := some ord, parameter := some param } = some o₁)
    (h₂ : setDefaultOptions defaultDist .regularized {} = some o₂) :
    Feature.modifier sinQ stdNormal rngOf normF .regularized o₁ x f seed =
        .ok (.fin (f + param * normF ord x)) ∧
      o₂.order = some 2 ∧ o₂.parameter = some 1 ∧
      Feature.modifier sinQ stdNormal rngOf normF .regularized o₂ x f seed =
        .ok (.fin (f + normF 2 x)) := by
  simp only [setDefaultOptions, setDefault, Option.some.injEq] at h₁ h₂
  subst h₁ h₂
  refine ⟨rfl, rfl, rfl, ?_⟩
  simp [Feature.modifier]

/-- C8 witness: the statement at a concrete interpretation and input. -/
theorem regularized_modifier_eq_witness :
    Feature.modifier zeroSin zeroNormal zeroStream sumNorm .regularized
        { n_runs := some 1, order := some 3, parameter := some 2 } [1, 2] 5 none =
        .ok (.fin (5 + 2 * sumNorm 3 [1, 2])) ∧
      (FeatureOptions.mk (some 1) none none (some 2) (some 1) none none none none).order =
        some 2 ∧
      (FeatureOptions.mk (some 1) none none (some 2) (some 1) none none none none).parameter =
        some 1 ∧
      Feature.modifier zeroSin zeroNormal zeroStream sumNorm .regularized
        (FeatureOptions.mk (some 1) none none (some 2) (some 1) none none none none) [1, 2] 5
        none = .ok (.fin (5 + sumNorm 2 [1, 2])) :=
  regularized_modifier_eq zeroSin zeroNormal zeroStream sumNorm
    (fun _ => 0) [1, 2] 5 none 3 2
    { n_runs := some 1, order := some 3, parameter := some 2 }
    (FeatureOptions.mk (some 1) none none (some 2) (some 1) none none none none) rfl rfl

/-- C10: the generator derivation is invariant under permutation of its
context values, because they are combined by a commutative sum of sines;
consequently the `noisy`, `tough` and `truncated` modifiers coincide at
two evaluation points that are permutations of each other. -/
theorem derivation_perm_invariant (sinQ : ℚ → ℚ) (stdNormal : Option ℕ → ℚ)
    (rngOf : ℤ → ℕ → ℚ) (normF : ℚ → List ℚ → ℚ) (seed : Option ℕ)
    (args₁ args₂ : List ℚ) (hargs : args₁.Perm args₂) (o : FeatureOptions) (f : ℚ)
    (x₁ x₂ : List ℚ) (hx : x₁.Perm x₂) :
    rngOf (derivedSeed sinQ stdNormal seed args₁) =
        rngOf (derivedSeed sinQ stdNormal seed args₂) ∧
      ∀ name : FeatureName,
        name = FeatureName.noisy ∨ name = FeatureName.tough ∨ name = FeatureName.truncated →
          Feature.modifier sinQ stdNormal rngOf normF name o x₁ f seed =
            Feature.modifier sinQ stdNormal rngOf normF name o x₂ f seed := by
  refine ⟨by rw [derivedSeed_perm sinQ stdNormal seed hargs], ?_⟩
  intro name hname
  rcases hname with h | h | h
  · subst h
    simp only [Feature.modifier]
    rw [derivedSeed_perm sinQ stdNormal seed ((hx.cons _).cons _)]
  · subst h
    simp only [Feature.modifier]
    rw [derivedSeed_perm sinQ stdNormal seed (((hx.cons _).cons _).cons _)]
  · subst h
    simp only [Feature.modifier]
    rw [derivedSeed_perm sinQ stdNormal seed ((hx.cons _).cons _)]

/-- C10 witness: the permutation invariance applied at swapped
two-dimensional points and a concrete interpretation. -/
theorem derivation_perm_invariant_witness :
    zeroStream (derivedSeed zeroSin zeroNormal (some 1) [1, 2]) =
        zeroStream (derivedSeed zeroSin zeroNormal (some 1) [2, 1]) ∧
      ∀ name : FeatureName,
        name = FeatureName.noisy ∨ name = FeatureName.tough ∨ name = FeatureName.truncated →
          Feature.modifier zeroSin zeroNormal zeroStream sumNorm name
              toughOpts [1, 2] 5 (some 1) =
            Feature.modifier zeroSin zeroNormal zeroStream sumNorm name
              toughOpts [2, 1] 5 (some 1) :=
  derivation_perm_invariant zeroSin zeroNormal zeroStream sumNorm (some 1)
    [1, 2] [2, 1] (List.Perm.swap 2 1 []) toughOpts 5 [1, 2] [2, 1] (List.Perm.swap 2 1 [])

/-!
The work-count extractor (`create_profiles`, lines 126-144).  A merit
series for one (problem, solver, run) is a list of `FP` values; the
sanitised pipeline never produces NaN merits, which the theorems record
as a `FP.nan ∉ merits` hypothesis.  An unsolved run is `none` (the source
leaves the NaN it pre-filled `work` with).
-/

/-- `np.minimum`: NaN-propagating binary minimum. -/
def npMinimum (a b : FP) : FP :=
  if a = .nan ∨ b = .nan then .nan
  else if FP.le a b then a else b

/-- `np.min` over a 1-D array, as the `np.minimum` reduction.  The source
never reduces an empty evaluation axis (`max_eval >= 1`); the `[]` value
is arbitrary. -/
def npMin : List FP → FP
  | [] => .inf
  | a :: rest => rest.foldl npMinimum a

/-- The per-problem threshold of `create_profiles`:
`max(tol * merit_init + (1 - tol) * merit_min, merit_min)` when
`merit_min` is finite, else `-inf`. -/
def thresholdOf (tol : ℚ) (meritInit meritMin : FP) : FP :=
  if FP.isFinite meritMin then
    pyMax (FP.add (FP.mulQ tol meritInit) (FP.mulQ (1 - tol) meritMin)) meritMin
  else .neginf

/-- The work count of one (problem, solver, run) at one threshold:
`np.argmax(merits <= threshold) + 1` when the run's minimum merit
reaches the threshold, else unsolved (`none`). -/
def workCount (merits : List FP) (threshold : FP) : Option ℕ :=
  if FP.le (npMin merits) threshold then
    some (merits.findIdx (fun m => FP.le m threshold) + 1)
  else none

/-- `np.logspace(-1, -10, 10)`: the ten swept tolerances. -/
def tolerances : List ℚ := (List.range 10).map (fun i => (1 : ℚ) / 10 ^ (i + 1))

/-- Order on work counts in which the unsolved sentinel is greater than
every finite count. -/
def workLE : Option ℕ → Option ℕ → Prop
  | _, none => True
  | none, some _ => False
  | some m, some n => m ≤ n

theorem FP.le_trans {a b c : FP} (h1 : FP.le a b = true) (h2 : FP.le b c = true) :
    FP.le a c = true := by
  cases a <;> cases b <;> cases c <;> simp_all [FP.le]
  exact h1.trans h2

theorem FP.le_total_of_ne_nan {a b : FP} (ha : a ≠ .nan) (hb : b ≠ .nan) :
    FP.le a b = true ∨ FP.le b a = true := by
  cases a <;> cases b <;> simp_all [FP.le] <;> exact le_total _ _

theorem FP.le_refl_of_ne_nan {a : FP} (ha : a ≠ .nan) : FP.le a a = true := by
  cases a <;> simp_all [FP.le]

theorem npMinimum_ne_nan {a b : FP} (ha : a ≠ .nan) (hb : b ≠ .nan) :
    npMinimum a b ≠ .nan := by
  unfold npMinimum
  rw [if_neg (by simp [ha, hb])]
  split
  · exact ha
  · exact hb

theorem npMinimum_eq_or {a b : FP} (ha : a ≠ .nan) (hb : b ≠ .nan) :
    npMinimum a b = a ∨ npMinimum a b = b := by
  unfold npMinimum
  rw [if_neg (by simp [ha, hb])]
  split
  · exact Or.inl rfl
  · exact Or.inr rfl

theorem npMinimum_le_left {a b : FP} (ha : a ≠ .nan) (hb : b ≠ .nan) :
    FP.le (npMinimum a b) a = true := by
  unfold npMinimum
  rw [if_neg (by simp [ha, hb])]
  by_cases h : FP.le a b = true
  · rw [if_pos h]
    exact FP.le_refl_of_ne_nan ha
  · rw [if_neg h]
    rcases FP.le_total_of_ne_nan ha hb with h' | h'
    · exact absurd h' h
    · exact h'

theorem npMinimum_le_right {a b : FP} (ha : a ≠ .nan) (hb : b ≠ .nan) :
    FP.le (npMinimum a b) b = true := by
  unfold npMinimum
  rw [if_neg (by simp [ha, hb])]
  by_cases h : FP.le a b = true
  · rw [if_pos h]
    exact h
  · rw [if_neg h]
    exact FP.le_refl_of_ne_nan hb

theorem foldl_npMinimum_props (l : List FP) (a : FP) (ha : a ≠ .nan)
    (hl : ∀ x ∈ l, x ≠ .nan) :
    l.foldl npMinimum a ≠ .nan ∧ FP.le (l.foldl npMinimum a) a = true ∧
      (∀ m ∈ l, FP.le (l.foldl npMinimum a) m = true) ∧
      (l.foldl npMinimum a = a ∨ l.foldl npMinimum a ∈ l) := by
  induction l generalizing a with
  | nil => simpa using ⟨ha, FP.le_refl_of_ne_nan ha⟩
  | cons x l ih =>
    have hx : x ≠ .nan := hl x (List.mem_cons_self x l)
    have hl' : ∀ y ∈ l, y ≠ .nan := fun y hy => hl y (List.mem_cons_of_mem x hy)
    have hmin : npMinimum a x ≠ .nan := npMinimum_ne_nan ha hx
    obtain ⟨h1, h2, h3, h4⟩ := ih (npMinimum a x) hmin hl'
    simp only [List.foldl_cons]
    refine ⟨h1, FP.le_trans h2 (npMinimum_le_left ha hx), ?_, ?_⟩
    · intro m hm
      rcases List.mem_cons.mp hm with rfl | hm'
      · exact FP.le_trans h2 (npMinimum_le_right ha hx)
      · exact h3 m hm'
    · rcases h4 with he | hmem
      · rw [he]
        rcases npMinimum_eq_or ha hx with h' | h'
        · exact Or.inl h'
        · right
          rw [h']
          exact List.mem_cons_self x l
      · exact Or.inr (List.mem_cons_of_mem x hmem)

theorem npMin_le_iff {l : List FP} (t : FP) (h0 : l ≠ []) (h1 : FP.nan ∉ l) :
    (FP.le (npMin l) t = true ↔ ∃ m ∈ l, FP.le m t = true) := by
  match l with
  | a :: rest =>
    have ha : a ≠ .nan := by
      rintro rfl
      exact h1 (List.mem_cons_self _ _)
    have hrest : ∀ x ∈ rest, x ≠ .nan := by
      intro x hx heq
      exact h1 (heq ▸ List.mem_cons_of_mem a hx)
    obtain ⟨hne, hlea, hlemem, hor⟩ := foldl_npMinimum_props rest a ha hrest
    show FP.le (rest.foldl npMinimum a) t = true ↔ _
    constructor
    · intro h
      rcases hor with he | hmem
      · exact ⟨a, List.mem_cons_self a rest, he ▸ h⟩
      · exact ⟨rest.foldl npMinimum a, List.mem_cons_of_mem a hmem, h⟩
    · rintro ⟨m, hm, hmt⟩
      rcases List.mem_cons.mp hm with rfl | hm'
      · exact FP.le_trans hlea hmt
      · exact FP.le_trans (hlemem m hm') hmt

theorem findIdx_le_findIdx_of_imp {α : Type} (l : List α) (pa pb : α → Bool)
    (h : ∀ a, pa a = true → pb a = true) : l.findIdx pb ≤ l.findIdx pa := by
  induction l with
  | nil => exact le_refl 0
  | cons x l ih =>
    rw [List.findIdx_cons, List.findIdx_cons]
    cases hpb : pb x with
    | true => simp [hpb]
    | false =>
      have hpa : pa x = false := by
        cases hpa : pa x with
        | true => exact absurd (h x hpa) (by simp [hpb])
        | false => rfl
      simp only [hpa, hpb, cond_false]
      exact Nat.succ_le_succ ih

/-- C4 counterexample: with `merit_min` not finite the threshold is
`-inf`, but it is not "never crossed": a run whose merit reaches `-inf`
crosses it at its first such evaluation (numpy's `-inf <= -inf` holds),
so the run is counted as solved with work count 1, not unsolved. -/
theorem work_count_neginf_counterexample :
    thresholdOf (1 / 10) (FP.fin 0) FP.neginf = FP.neginf ∧
      workCount [FP.neginf] (thresholdOf (1 / 10) (FP.fin 0) FP.neginf) = some 1 := by
  constructor
  · rfl
  · rfl

/-- C4 (amended): exactly ten tolerances are swept, geometrically spaced
(`tolerances[i] = 10^-(i+1)` for `i < 10`); for every merit series, the
work count at the threshold `max(tol * merit_init + (1-tol) * merit_min,
merit_min)` if `merit_min` is finite, else `-inf` (a threshold that only
merits equal to `-inf` can reach), is unsolved exactly when no
evaluation's merit reaches the threshold, and equals `k` exactly when `k`
is the 1-indexed position of the first evaluation whose merit reaches the
threshold. -/
theorem work_count_characterization (merits : List FP) (tol : ℚ) (mi mm : FP)
    (h0 : merits ≠ []) (h1 : FP.nan ∉ merits) :
    (tolerances.length = 10 ∧
      ∀ i, i < 10 → tolerances.getD i 0 = 1 / 10 ^ (i + 1)) ∧
    (workCount merits (thresholdOf tol mi mm) = none ↔
      ∀ m ∈ merits, FP.le m (thresholdOf tol mi mm) = false) ∧
    ∀ k, workCount merits (thresholdOf tol mi mm) = some k ↔
      1 ≤ k ∧ k - 1 < merits.length ∧
        FP.le (merits.getD (k - 1) FP.nan) (thresholdOf tol mi mm) = true ∧
        ∀ j, j < k - 1 → FP.le (merits.getD j FP.nan) (thresholdOf tol mi mm) = false := by
  refine ⟨⟨by simp [tolerances], ?_⟩, ?_, ?_⟩
  · intro i hi
    have hlen : i < tolerances.length := by simpa [tolerances] using hi
    rw [List.getD_eq_getElem _ _ hlen]
    simp [tolerances]
  · unfold workCount
    by_cases h : FP.le (npMin merits) (thresholdOf tol mi mm) = true
    · rw [if_pos h]
      constructor
      · intro hc
        exact absurd hc (by simp)
      · intro hall
        obtain ⟨m, hm, hmt⟩ := (npMin_le_iff _ h0 h1).mp h
        rw [hall m hm] at hmt
        exact absurd hmt (by simp)
    · rw [if_neg h]
      constructor
      · intro _ m hm
        cases hle : FP.le m (thresholdOf tol mi mm) with
        | false => rfl
        | true => exact absurd ((npMin_le_iff _ h0 h1).mpr ⟨m, hm, hle⟩) h
      · intro _
        rfl
  · intro k
    unfold workCount
    by_cases h : FP.le (npMin merits) (thresholdOf tol mi mm) = true
    · rw [if_pos h]
      have hex := (npMin_le_iff _ h0 h1).mp h
      have hfi : merits.findIdx (fun m => FP.le m (thresholdOf tol mi mm)) < merits.length :=
        List.findIdx_lt_length.mpr (by simpa using hex)
      constructor
      · intro hk
        injection hk with hk
        subst hk
        refine ⟨Nat.succ_le_succ (Nat.zero_le _), by simpa using hfi, ?_, ?_⟩
        · rw [Nat.add_sub_cancel, List.getD_eq_getElem _ _ hfi]
          exact @List.findIdx_getElem _ (fun m => FP.le m (thresholdOf tol mi mm)) merits hfi
        · intro j hj
          rw [Nat.add_sub_cancel] at hj
          have hjlen : j < merits.length := lt_trans hj hfi
          rw [List.getD_eq_getElem _ _ hjlen]
          exact List.not_of_lt_findIdx hj
      · rintro ⟨hk1, hklen, hkle, hkmin⟩
        have hge : merits.findIdx (fun m => FP.le m (thresholdOf tol mi mm)) ≤ k - 1 := by
          by_contra hlt
          push_neg at hlt
          have hfalse := List.not_of_lt_findIdx hlt
          rw [List.getD_eq_getElem _ _ hklen] at hkle
          rw [hkle] at hfalse
          exact absurd hfalse (by simp)
        have hle2 : k - 1 ≤ merits.findIdx (fun m => FP.le m (thresholdOf tol mi mm)) := by
          by_contra hlt
          push_neg at hlt
          have hmt := hkmin _ hlt
          rw [List.getD_eq_getElem _ _ hfi] at hmt
          have hpf := List.findIdx_getElem (w := hfi)
          rw [hpf] at hmt
          exact absurd hmt (by simp)
        rw [le_antisymm hge hle2, Nat.sub_add_cancel hk1]
    · rw [if_neg h]
      constructor
      · intro hc
        exact absurd hc (by simp)
      · rintro ⟨hk1, hklen, hkle, hkmin⟩
        exfalso
        apply h
        apply (npMin_le_iff _ h0 h1).mpr
        refine ⟨merits.getD (k - 1) FP.nan, ?_, hkle⟩
        rw [List.getD_eq_getElem _ _ hklen]
        exact List.getElem_mem hklen

/-- C4 witness: the unsolved characterisation evaluated on a concrete
one-evaluation merit series and threshold. -/
theorem work_count_characterization_witness :
    workCount [FP.fin 0] (thresholdOf (1 / 10) (FP.fin 1) (FP.fin 0)) = none ↔
      ∀ m ∈ [FP.fin 0], FP.le m (thresholdOf (1 / 10) (FP.fin 1) (FP.fin 0)) = false :=
  (work_count_characterization [FP.fin 0] (1 / 10) (FP.fin 1) (FP.fin 0)
    (by simp) (by simp)).2.1

theorem thresholdOf_mono (t1 t2 : ℚ) (mi mm : FP) (hmi : mi ≠ .nan) (h01 : 0 < t1)
    (h12 : t1 ≤ t2) :
    FP.le (thresholdOf t1 mi mm) (thresholdOf t2 mi mm) = true := by
  have h02 : 0 < t2 := lt_of_lt_of_le h01 h12
  unfold thresholdOf
  cases mm with
  | nan => simp [FP.isFinite, FP.le]
  | inf => simp [FP.isFinite, FP.le]
  | neginf => simp [FP.isFinite, FP.le]
  | fin m =>
    simp only [FP.isFinite, if_true]
    cases mi with
    | nan => exact absurd rfl hmi
    | inf => simp [FP.mulQ, h01, h02, FP.add, pyMax, FP.lt, FP.le]
    | neginf => simp [FP.mulQ, h01, h02, FP.add, pyMax, FP.lt, FP.le]
    | fin q =>
      simp only [FP.mulQ, FP.add, pyMax, FP.lt, FP.le, decide_eq_true_eq]
      have key : ¬ (t1 * q + (1 - t1) * m < m) → 0 ≤ q - m := by
        intro hA1
        by_contra hneg
        push_neg at hneg
        have : t1 * (q - m) < 0 := mul_neg_of_pos_of_neg h01 hneg
        apply hA1
        nlinarith
      split_ifs with hA1 hA2 hA2
      · simp
      · simpa using not_lt.mp hA2
      · exfalso
        have hqm : 0 ≤ q - m := key hA1
        have : 0 ≤ t2 * (q - m) := mul_nonneg h02.le hqm
        nlinarith
      · have hqm : 0 ≤ q - m := key hA1
        have : 0 ≤ (t2 - t1) * (q - m) := mul_nonneg (sub_nonneg.mpr h12) hqm
        simp only [decide_eq_true_eq]
        nlinarith

theorem workCount_le_of_threshold_le (merits : List FP) (ta tb : FP)
    (hab : FP.le ta tb = true) :
    workLE (workCount merits tb) (workCount merits ta) := by
  unfold workCount
  by_cases h : FP.le (npMin merits) ta = true
  · rw [if_pos h, if_pos (FP.le_trans h hab)]
    show merits.findIdx (fun m => FP.le m tb) + 1 ≤ merits.findIdx (fun m => FP.le m ta) + 1
    exact Nat.succ_le_succ
      (findIdx_le_findIdx_of_imp _ _ _ (fun a ha => FP.le_trans ha hab))
  · rw [if_neg h]
    split
    · exact trivial
    · exact trivial

/-- C5: for fixed merit data, a fixed non-NaN initial merit and a fixed
baseline, the work count is anti-monotone in the tolerance: a stricter
tolerance `t1 <= t2` in `(0, 1)` never yields a smaller work count, with
the unsolved sentinel greater than every finite count. -/
theorem work_count_antitone (merits : List FP) (mi mm : FP) (t1 t2 : ℚ)
    (hmi : mi ≠ .nan) (h01 : 0 < t1) (h12 : t1 ≤ t2) (h21 : t2 < 1) :
    workLE (workCount merits (thresholdOf t2 mi mm))
      (workCount merits (thresholdOf t1 mi mm)) :=
  workCount_le_of_threshold_le merits _ _ (thresholdOf_mono t1 t2 mi mm hmi h01 h12)

/-- C5 witness: the anti-monotonicity applied to a concrete series and a
concrete tolerance pair. -/
theorem work_count_antitone_witness :
    workLE (workCount [FP.fin 0] (thresholdOf (1 / 10) (FP.fin 1) (FP.fin 0)))
      (workCount [FP.fin 0] (thresholdOf (1 / 100) (FP.fin 1) (FP.fin 0))) :=
  work_count_antitone [FP.fin 0] (FP.fin 1) (FP.fin 0) (1 / 100) (1 / 10)
    (by simp) (by norm_num) (by norm_num) (by norm_num)

/-!
The log-ratio builder (`create_profiles`, lines 180-189, `n_solvers = 2`)
and the profile axis builder (`_profile_axes`).  A flattened
(problem, run) entry of `work` is `none` when unsolved (the NaN the
source pre-fills `work` with) and `some w` when solved.  `lg` stands for
`np.log2`; every theorem holds for any interpretation of it.  The source
fills the four disjoint, exhaustive masks of the `log_ratio` array in
place; the embedding produces the same array as one element-wise map.
-/

/-- `np.finfo(float).eps`, the positive floor of the ratio scale. -/
def epsFloat : ℚ := 1 / 2 ^ 52

/-- The finite log2 ratios `log2(work[0] / work[1])` over the pairs in
which both solvers solved. -/
def finiteLogRatios (lg : ℚ → ℚ) (pairs : List (Option ℚ × Option ℚ)) : List ℚ :=
  pairs.filterMap (fun p =>
    match p with
    | (some a, some b) => some (lg (a / b))
    | _ => none)

/-- `np.max(np.abs(log_ratio[finite]), initial=eps)`. -/
def ratioMaxOf (lg : ℚ → ℚ) (pairs : List (Option ℚ × Option ℚ)) : ℚ :=
  (finiteLogRatios lg pairs).foldl (fun m v => max m |v|) epsFloat

/-- One entry of the log-ratio array: `log2(work[0]/work[1])` when both
solved, `2 * ratio_max` when only solver 0 failed, `-2 * ratio_max` when
only solver 1 failed, `0` when both failed. -/
def logRatioValue (lg : ℚ → ℚ) (rmax : ℚ) : Option ℚ × Option ℚ → ℚ
  | (some a, some b) => lg (a / b)
  | (none, some _) => 2 * rmax
  | (some _, none) => -(2 * rmax)
  | (none, none) => 0

/-- The sorted log-ratio sequence handed to the plotting collaborator. -/
def logRatioSeq (lg : ℚ → ℚ) (pairs : List (Option ℚ × Option ℚ)) : List ℚ :=
  (pairs.map (logRatioValue lg (ratioMaxOf lg pairs))).mergeSort (fun a b => decide (a ≤ b))

theorem foldl_max_abs_init_le (l : List ℚ) (a : ℚ) :
    a ≤ l.foldl (fun m v => max m |v|) a := by
  induction l generalizing a with
  | nil => exact le_refl a
  | cons x l ih => exact le_trans (le_max_left a |x|) (ih (max a |x|))

theorem foldl_max_abs_mem_le (l : List ℚ) (a : ℚ) :
    ∀ v ∈ l, |v| ≤ l.foldl (fun m v => max m |v|) a := by
  induction l generalizing a with
  | nil => intro v hv; exact absurd hv (List.not_mem_nil v)
  | cons x l ih =>
    intro v hv
    rcases List.mem_cons.mp hv with rfl | hv'
    · exact le_trans (le_max_right a |v|) (foldl_max_abs_init_le l (max a |v|))
    · exact ih (max a |x|) v hv'

theorem foldl_max_abs_eq_or (l : List ℚ) (a : ℚ) :
    l.foldl (fun m v => max m |v|) a = a ∨ ∃ v ∈ l, l.foldl (fun m v => max m |v|) a = |v| := by
  induction l generalizing a with
  | nil => exact Or.inl rfl
  | cons x l ih =>
    rcases ih (max a |x|) with he | ⟨v, hv, he⟩
    · rcases max_choice a |x| with hm | hm
      · exact Or.inl (by rw [List.foldl_cons, he, hm])
      · exact Or.inr ⟨x, List.mem_cons_self x l, by rw [List.foldl_cons, he, hm]⟩
    · exact Or.inr ⟨v, List.mem_cons_of_mem x hv, by rw [List.foldl_cons, he]⟩

/-- C6: the log-ratio sequence is a sorted (ascending) rearrangement of
the per-(problem, run) values `log2(work[0]/work[1])` (both solved),
`2 * ratio_max` (only solver 0 failed), `-2 * ratio_max` (only solver 1
failed) and `0` (both failed), where `ratio_max` bounds every finite
absolute log-ratio, is attained by one of them unless it is the floor,
and is floored at the small positive constant `eps`; when both solvers
fail on every pair the sequence is identically zero. -/
theorem log_ratio_seq_spec (lg : ℚ → ℚ) (pairs : List (Option ℚ × Option ℚ)) :
    (logRatioSeq lg pairs).Perm (pairs.map (logRatioValue lg (ratioMaxOf lg pairs))) ∧
      (logRatioSeq lg pairs).Sorted (· ≤ ·) ∧
      0 < epsFloat ∧ epsFloat ≤ ratioMaxOf lg pairs ∧
      (∀ v ∈ finiteLogRatios lg pairs, |v| ≤ ratioMaxOf lg pairs) ∧
      (ratioMaxOf lg pairs = epsFloat ∨
        ∃ v ∈ finiteLogRatios lg pairs, ratioMaxOf lg pairs = |v|) ∧
      ((∀ p ∈ pairs, p = (none, none)) →
        logRatioSeq lg pairs = List.replicate pairs.length 0) := by
  have hperm : (logRatioSeq lg pairs).Perm
      (pairs.map (logRatioValue lg (ratioMaxOf lg pairs))) :=
    List.mergeSort_perm _ _
  refine ⟨hperm, ?_, by norm_num [epsFloat], foldl_max_abs_init_le _ _,
    foldl_max_abs_mem_le _ _, foldl_max_abs_eq_or _ _, ?_⟩
  · have hpw := @List.sorted_mergeSort ℚ (fun a b : ℚ => decide (a ≤ b))
      (fun a b c h1 h2 => by
        simp only [decide_eq_true_eq] at *
        exact h1.trans h2)
      (fun a b => by simpa using le_total a b)
      (pairs.map (logRatioValue lg (ratioMaxOf lg pairs)))
    exact hpw.imp (by simp only [decide_eq_true_eq]; exact fun h => h)
  · intro hall
    have hmap : pairs.map (logRatioValue lg (ratioMaxOf lg pairs)) =
        List.replicate pairs.length 0 := by
      apply List.eq_replicate_iff.mpr
      refine ⟨by simp, ?_⟩
      intro b hb
      obtain ⟨p, hp, hpb⟩ := List.mem_map.mp hb
      rw [hall p hp] at hpb
      exact hpb.symm
    rw [hmap] at hperm
    apply List.eq_replicate_iff.mpr
    refine ⟨by rw [hperm.length_eq, List.length_replicate], ?_⟩
    intro b hb
    exact List.eq_of_mem_replicate (hperm.mem_iff.mp hb)

/-- C6 witness: with two pairs on which both solvers fail, the log-ratio
sequence is `[0, 0]`. -/
theorem log_ratio_seq_spec_witness :
    logRatioSeq (fun q => q) [(none, none), (none, none)] = List.replicate 2 0 :=
  (log_ratio_seq_spec (fun q => q) [(none, none), (none, none)]).2.2.2.2.2.2
    (by intro p hp; rcases List.mem_cons.mp hp with h | h'
        · exact h
        · rcases List.mem_cons.mp h' with h | h
          · exact h
          · exact absurd h (List.not_mem_nil p))

/-- The pre-division x cube of `_profile_axes`, indexed run, problem,
solver: `work[p, s, r] / denominator(p, r)`; `none` is NaN (an unsolved
work entry). -/
def xCube (P S R : ℕ) (work : ℕ → ℕ → ℕ → Option ℚ) (denom : ℕ → ℕ → ℚ) :
    List (List (List (Option ℚ))) :=
  (List.range R).map fun r =>
    (List.range P).map fun p =>
      (List.range S).map fun s => (work p s r).map (fun w => w / denom p r)

/-- `np.nanmax(x, initial=eps)`: the maximum over the non-NaN entries of
the cube, floored at `eps`. -/
def nanmaxCube (cube : List (List (List (Option ℚ)))) : ℚ :=
  cube.foldl (fun acc plane =>
    plane.foldl (fun acc2 row =>
      row.foldl (fun acc3 v =>
        match v with
        | none => acc3
        | some q => max acc3 q) acc2) acc) epsFloat

/-- `x[np.isnan(x)] = np.inf`: after the replacement an entry is finite
or `+inf`. -/
def xval : Option ℚ → FP
  | none => .inf
  | some q => .fin q

/-- The per-solver column of the reshaped x array: for each run the
problem-axis slice is sorted (`np.sort(x, 1)`), and the runs are
concatenated in order (`np.reshape` on the run-major layout). -/
def xColumn (P R : ℕ) (work : ℕ → ℕ → ℕ → Option ℚ) (denom : ℕ → ℕ → ℚ) (s : ℕ) :
    List FP :=
  (List.range R).flatMap fun r =>
    ((List.range P).map fun p =>
      xval ((work p s r).map (fun w => w / denom p r))).mergeSort (fun a b => FP.le a b)

/-- `np.argsort(x, 0, 'stable')` on one column: the indices of the
column sorted by value, ties kept in original order (a stable sort of
the enumerated column). -/
def argsortStable (col : List FP) : List ℕ :=
  ((col.enum).mergeSort (fun a b => FP.le a.2 b.2)).map Prod.fst

/-- `np.take_along_axis` on one column. -/
def takeAlong (col : List FP) (idx : List ℕ) : List FP :=
  idx.map (fun i => col.getD i FP.nan)

/-- The y column of solver `s`, run `r`, before sorting and filling:
rows `r*P .. r*P + P - 1` hold `np.linspace(1/P, 1, P)` and every other
row holds NaN (`none`). -/
def yBase (P R : ℕ) (r : ℕ) : List (Option ℚ) :=
  (List.range (P * R)).map fun i =>
    if 0 < P ∧ i / P = r then some (((i % P : ℕ) + 1 : ℚ) / P) else none

/-- Replace each NaN row of a y column by the previous row's value
(0 for the first row), as the final loop of `_profile_axes` does. -/
def fillForward : List (Option ℚ) → ℚ → List ℚ
  | [], _ => []
  | none :: rest, prev => prev :: fillForward rest prev
  | some v :: rest, _ => v :: fillForward rest v

/-- The y column of solver `s`, run `r`: the base column permuted by the
solver's stable argsort, then filled forward. -/
def yColumn (P R : ℕ) (r : ℕ) (perm : List ℕ) : List ℚ :=
  fillForward (perm.map (fun i => (yBase P R r).getD i none)) 0

/-- `_profile_axes`: the x coordinates (one sorted column per solver),
the y coordinates (one column per solver and run) and `ratio_max`.
Columns are stored per solver; the source's `(P*R, S)` array is the
transpose of the first component and its `(P*R, S, R)` array the
transpose of the second. -/
def profileAxes (P S R : ℕ) (work : ℕ → ℕ → ℕ → Option ℚ) (denom : ℕ → ℕ → ℚ) :
    List (List FP) × List (List (List ℚ)) × ℚ :=
  ((List.range S).map (fun s =>
      takeAlong (xColumn P R work denom s) (argsortStable (xColumn P R work denom s))),
    (List.range S).map (fun s =>
      (List.range R).map (fun r => yColumn P R r (argsortStable (xColumn P R work denom s)))),
    nanmaxCube (xCube P S R work denom))

theorem flatMap_nil_fun {α β : Type} (l : List α) :
    (l.flatMap fun _ => ([] : List β)) = [] := by
  induction l with
  | nil => rfl
  | cons x xs ih => simpa using ih

theorem foldl_keep {α β : Type} (l : List α) (a : β) :
    l.foldl (fun acc _ => acc) a = a := by
  induction l generalizing a with
  | nil => rfl
  | cons x xs ih => simpa using ih a

/-- C9: with zero problems the profile axis builder returns empty x and
y coordinate columns for every solver and run, and a `ratio_max` equal
to its positive floor `eps`, with no error raised (the builder is a
total function and the empty reductions hit their guarded defaults). -/
theorem profile_axes_empty (S R : ℕ) (work : ℕ → ℕ → ℕ → Option ℚ) (denom : ℕ → ℕ → ℚ) :
    profileAxes 0 S R work denom =
      (List.replicate S [], List.replicate S (List.replicate R []), epsFloat) := by
  have hcol : ∀ s, xColumn 0 R work denom s = [] := by
    intro s
    unfold xColumn
    simp only [List.range_zero, List.map_nil, List.mergeSort_nil]
    exact flatMap_nil_fun _
  unfold profileAxes
  refine congrArg₂ Prod.mk ?_ (congrArg₂ Prod.mk ?_ ?_)
  · rw [show (fun s => takeAlong (xColumn 0 R work denom s)
          (argsortStable (xColumn 0 R work denom s))) = fun _ => ([] : List FP) from ?_]
    · rw [List.map_const', List.length_range]
    · funext s
      rw [hcol s]
      simp [takeAlong, argsortStable]
  · rw [show (fun s => (List.range R).map
          (fun r => yColumn 0 R r (argsortStable (xColumn 0 R work denom s)))) =
          fun _ => List.replicate R ([] : List ℚ) from ?_]
    · rw [List.map_const', List.length_range]
    · funext s
      rw [hcol s]
      show (List.range R).map (fun r => yColumn 0 R r (argsortStable [])) = _
      rw [show (fun r => yColumn 0 R r (argsortStable [])) = fun _ => ([] : List ℚ) from ?_]
      · rw [List.map_const', List.length_range]
      · funext r
        simp [yColumn, argsortStable, fillForward]
  · unfold nanmaxCube xCube
    simp only [List.range_zero, List.map_nil, List.foldl_map]
    rw [show (fun (acc : ℚ) (r : ℕ) =>
        List.foldl (fun acc2 row => List.foldl (fun acc3 v =>
          match v with
          | none => acc3
          | some q => max acc3 q) acc2 row) acc ([] : List (List (Option ℚ)))) =
        fun acc _ => acc from rfl]
    exact foldl_keep _ _
